import Mathlib

/-!
Verification development for the BatchBuddy pipeline (src/ap.py): a shallow
embedding of the score normalizer, categorizer, batch builder, topic rotator,
output composer and per-batch export, together with theorems settling the
frozen claims about them.  Python floats are modelled by rationals, Python
strings (where their character structure matters) by lists of characters, and
raised exceptions by an explicit error type.
-/

/-- Failure outcomes of the embedded code.  The first seven name the Python
exception classes the script can actually raise on the modelled inputs;
parseError is the abstract rejection used by the spec-modelled normalizer. -/
inductive PyErr
  | stopIteration
  | indexError
  | zeroDivisionError
  | nameError
  | typeError
  | valueError
  | keyError
  | parseError
deriving DecidableEq, Repr

deriving instance DecidableEq for Except

/-- Performance tiers, the labels of the pd.cut call in categorize_students. -/
inductive Tier
  | Low
  | Medium
  | High
deriving DecidableEq, Repr

/-- A student row after normalization and categorization: name, percentage
score, and the tier produced by pd.cut (none when the score falls outside
every bin, which pandas renders as NaN). -/
structure Student where
  name : String
  score : ℚ
  category : Option Tier
deriving DecidableEq, Repr

/-- Splitting a character list on a separator, the model of the Python
str.split method with a one-character separator: splitting the empty string
gives one empty part, and n separators give n+1 parts. -/
def splitOnChar (sep : Char) : List Char → List (List Char)
  | [] => [[]]
  | c :: cs =>
    if c = sep then [] :: splitOnChar sep cs
    else
      match splitOnChar sep cs with
      | [] => [[c]]
      | p :: ps => (c :: p) :: ps

/-- Whitespace trimming at both ends, the model of Python str.strip. -/
def trimChars (l : List Char) : List Char :=
  ((l.dropWhile Char.isWhitespace).reverse.dropWhile Char.isWhitespace).reverse

/-- Numeric value of a digit string, most significant digit first. -/
def digitsVal (l : List Char) : ℕ :=
  l.foldl (fun n c => 10 * n + (c.toNat - 48)) 0

/-- A parsed decimal literal: sign, integer part, and the value and count of
the fractional digits.  Kept in booleans and naturals so that parsing is
kernel-computable; the rational value is attached by DecLit.val below. -/
structure DecLit where
  neg : Bool
  ip : ℕ
  fp : ℕ
  fd : ℕ
deriving DecidableEq, Repr

/-- Parser for an unsigned decimal literal: one or more digits, optionally
followed by a dot and one or more digits.  CPython restriction on integer
literals: a decimal integer literal may not have leading zeros unless it is
all zeros (eval of 018 raises a SyntaxError while 00 and 0 are fine); float
literals such as 007.5 carry no such restriction. -/
def parseLitCore (l : List Char) : Option (ℕ × ℕ × ℕ) :=
  let ip := l.takeWhile Char.isDigit
  let rest := l.dropWhile Char.isDigit
  if ip.isEmpty then none
  else
    match rest with
    | [] =>
      if ip.head? = some ('0') ∧ ¬ip.all (fun c => c = ('0')) then none
      else some (digitsVal ip, 0, 0)
    | c :: frac =>
      if c = ('.') ∧ ¬frac.isEmpty ∧ frac.all Char.isDigit then
        some (digitsVal ip, digitsVal frac, frac.length)
      else none

/-- Parser for a decimal literal with an optional leading minus sign. -/
def parseLit (l : List Char) : Option DecLit :=
  match l with
  | c :: rest =>
    if c = ('-') then (parseLitCore rest).map (fun p => ⟨true, p.1, p.2.1, p.2.2⟩)
    else (parseLitCore l).map (fun p => ⟨false, p.1, p.2.1, p.2.2⟩)
  | [] => none

/-- Rational value denoted by a parsed decimal literal. -/
def DecLit.val (d : DecLit) : ℚ :=
  (if d.neg then -1 else 1) * ((d.ip : ℚ) + (d.fp : ℚ) / (10 : ℚ) ^ d.fd)

/-- Model of the Python builtin eval on the fragment of expressions this
development evaluates it at: decimal literals with optional sign and
fractional part (subject to CPython's leading-zero restriction enforced by
parseLit), the constant True (numerically 1), and a call of the builtin abs
on a literal.  Every string the model accepts is accepted by CPython with
exactly the returned value; strings the model maps to an error (including
the nameError catch-all for strings outside the fragment) are either raised
on by CPython as well, possibly with a different exception class, or lie
outside the fragment, which no theorem below inspects. -/
def evalPy (t : List Char) : Except PyErr ℚ :=
  match parseLit t with
  | some d => Except.ok d.val
  | none =>
    if t = ( "True").toList then Except.ok 1
    else if t.take 4 = ( "abs(").toList ∧ t.getLast? = some (')') then
      match parseLit (trimChars ((t.drop 4).dropLast)) with
      | some d => Except.ok |d.val|
      | none => Except.error PyErr.typeError
    else Except.error PyErr.nameError

/-- Embedding of the score-normalizing lambda on line 49 of ap.py: eval of
the text before the first slash (stripped), divided by eval of the text
between the first and second slash (stripped), times 100.  Evaluation order
follows Python: the left operand is fully evaluated before the second
indexing can raise an IndexError, and a zero denominator raises a
ZeroDivisionError. -/
def normalize_score (x : List Char) : Except PyErr ℚ :=
  match splitOnChar ('/') x with
  | [] => Except.error PyErr.indexError
  | p0 :: rest =>
    match evalPy (trimChars p0) with
    | Except.error e => Except.error e
    | Except.ok a =>
      match rest with
      | [] => Except.error PyErr.indexError
      | p1 :: _ =>
        match evalPy (trimChars p1) with
        | Except.error e => Except.error e
        | Except.ok b =>
          if b = 0 then Except.error PyErr.zeroDivisionError
          else Except.ok (a / b * 100)

/-- Modelled from the spec: the constrained numeric-literal score normalizer
of sections 4.1 and 9, which is absent from the code (line 49 uses eval
instead).  Split on the first slash, parse each side as a float literal after
trimming, reject anything non-numeric with a ParseError, and treat a zero
total as a ParseError as well; otherwise return earned over total times 100. -/
def specNormalize (x : List Char) : Except PyErr ℚ :=
  match splitOnChar ('/') x with
  | p0 :: p1 :: rest =>
    let right := List.intercalate [('/')] (p1 :: rest)
    match parseLit (trimChars p0), parseLit (trimChars right) with
    | some a, some b =>
      if b.val = 0 then Except.error PyErr.parseError else Except.ok (a.val / b.val * 100)
    | _, _ => Except.error PyErr.parseError
  | _ => Except.error PyErr.parseError

/-- Embedding of the pd.cut call in categorize_students (bins [-1, 40, 70,
100], labels Low, Medium, High): pandas cut uses left-open right-closed
intervals, and a value outside every interval gets no label (NaN). -/
def cut (p : ℚ) : Option Tier :=
  if -1 < p ∧ p ≤ 40 then some Tier.Low
  else if 40 < p ∧ p ≤ 70 then some Tier.Medium
  else if 70 < p ∧ p ≤ 100 then some Tier.High
  else none

/-- Embedding of categorize_students: attach the pd.cut tier to each
normalized row. -/
def categorize_students (rows : List (String × ℚ)) : List Student :=
  rows.map (fun r => ⟨r.1, r.2, cut r.2⟩)

/-- High pool: the data rows whose category label is High (line 66). -/
def hiPool (data : List Student) : List Student :=
  data.filter (fun s => s.category == some Tier.High)

/-- Medium pool: the data rows whose category label is Medium (line 66). -/
def mdPool (data : List Student) : List Student :=
  data.filter (fun s => s.category == some Tier.Medium)

/-- Low pool: the data rows whose category label is Low (line 66). -/
def loPool (data : List Student) : List Student :=
  data.filter (fun s => s.category == some Tier.Low)

/-- One iteration of the while loop (line 70): the first two High rows, the
first two Medium rows and the first Low row, concatenated in that order. -/
def takeBatch (H M L : List Student) : List Student :=
  H.take 2 ++ M.take 2 ++ L.take 1

/-- Cursor advance of line 73: a pool drops as many rows as the batch holds
of its category. -/
def dropCount (batch : List Student) (t : Tier) : ℕ :=
  batch.countP (fun s => s.category == some t)

/-- The while loop of create_balanced_batches (lines 69 to 75), embedded with
explicit fuel: while some pool is non-empty, carve off a batch, advance every
pool by the number of rows the batch took from it, and emit the batch when it
is non-empty.  create_balanced_batches runs it with fuel equal to the total
pool size; the termination theorem below shows that fuel is always enough, so
the fuelled loop agrees with the unbounded while loop of the source. -/
def batchLoopF : ℕ → List Student → List Student → List Student → List (List Student)
  | 0, _, _, _ => []
  | fuel + 1, H, M, L =>
    if H.length > 0 ∨ M.length > 0 ∨ L.length > 0 then
      let batch := takeBatch H M L
      let H2 := H.drop (dropCount batch Tier.High)
      let M2 := M.drop (dropCount batch Tier.Medium)
      let L2 := L.drop (dropCount batch Tier.Low)
      (if batch.isEmpty then [] else [batch]) ++ batchLoopF fuel H2 M2 L2
    else []

/-- Embedding of create_balanced_batches (lines 65 to 77). -/
def create_balanced_batches (data : List Student) : List (List Student) :=
  batchLoopF ((hiPool data).length + (mdPool data).length + (loPool data).length)
    (hiPool data) (mdPool data) (loPool data)

/-- A weekly topic with its description, as entered in the sidebar. -/
structure Topic where
  title : String
  description : String
deriving DecidableEq, Repr

/-- One weekly assignment row as built on line 86: week number, batch
identifier (1-based; the code renders it as the label Batch i), and the
title of the assigned topic. -/
structure Assignment where
  week : ℕ
  batchId : ℕ
  topic : String
deriving DecidableEq, Repr

/-- Model of next on an itertools.cycle of a list, with the pointer made
explicit: the k-th call returns the element at k modulo the length and
advances the pointer; on an empty list, next raises StopIteration. -/
def nextCycle (topics : List Topic) (k : ℕ) : Except PyErr (Topic × ℕ) :=
  match topics.get? (k % topics.length) with
  | some t => Except.ok (t, k + 1)
  | none => Except.error PyErr.stopIteration

/-- The nested loop body of assign_topics (lines 83 to 86), threading the
cycle pointer through the flattened (week, batch index) iteration. -/
def assignLoop (topics : List Topic) : List (ℕ × ℕ) → ℕ → Except PyErr (List Assignment)
  | [], _ => Except.ok []
  | (w, i) :: rest, k =>
    match nextCycle topics k with
    | Except.error e => Except.error e
    | Except.ok (t, k2) =>
      match assignLoop topics rest k2 with
      | Except.error e => Except.error e
      | Except.ok tail => Except.ok (⟨w, i + 1, t.title⟩ :: tail)

/-- The flattened iteration order of assign_topics: weeks 1..weeks outer,
batch indices 0..nB-1 inner. -/
def weekBatchPairs (weeks nB : ℕ) : List (ℕ × ℕ) :=
  (List.range' 1 weeks).flatMap (fun w => (List.range nB).map (fun i => (w, i)))

/-- Embedding of assign_topics (lines 80 to 87): one assignment per (week,
batch) pair, topics drawn from a single cycle that starts at pointer 0 and is
never reset. -/
def assign_topics (batches : List (List Student)) (topics : List Topic) (weeks : ℕ) :
    Except PyErr (List Assignment) :=
  assignLoop topics (weekBatchPairs weeks batches.length) 0

/-- The empty string, named so it can serve as an unused default. -/
def emptyStr : String := ""

/-- Title of the topic a cycle positioned at pointer k yields: the element at
k modulo the topic count.  The default is never reached when the topic list
is non-empty. -/
def titleAtD (topics : List Topic) (k : ℕ) : String :=
  ((topics.get? (k % topics.length)).map Topic.title).getD emptyStr

/-- Reference form of the assignment list produced by the loop of
assign_topics, with the cycle pointer explicit. -/
def assignSpec (topics : List Topic) : List (ℕ × ℕ) → ℕ → List Assignment
  | [], _ => []
  | (w, i) :: rest, k => ⟨w, i + 1, titleAtD topics k⟩ :: assignSpec topics rest (k + 1)

/-- One row of the combined output table: student name, batch identifier
(rendered as the label Batch i by the code), and the per-week topic cells in
week order; a cell is none when the lookup on line 99 finds no assignment,
which pandas renders as NaN. -/
structure OutputRow where
  name : String
  batchId : ℕ
  weekTopics : List (Option String)
deriving DecidableEq, Repr

/-- The week-count bound of line 97: the maximum of the Week column. -/
def maxWeek (asg : List Assignment) : ℕ :=
  asg.foldl (fun m a => max m a.week) 0

/-- The cell lookup of lines 98 and 99: restrict the assignments to one week,
then look up the row's batch (set_index on Batch followed by map; within a
week each batch occurs at most once, so the first match is the match). -/
def weekTopicCell (asg : List Assignment) (w b : ℕ) : Option String :=
  ((asg.filter (fun a => a.week == w)).find? (fun a => a.batchId == b)).map Assignment.topic

/-- Embedding of prepare_output (lines 90 to 101).  An empty batch list makes
the pd.concat on line 91 raise a ValueError; an empty assignment list leaves
the frame of line 96 without a Week column, so line 97 raises a KeyError;
otherwise one base row per batch member is built in batch order and one topic
column is added per week from 1 to the maximum assigned week. -/
def prepare_output (batches : List (List Student)) (asg : List Assignment) :
    Except PyErr (List OutputRow) :=
  if batches.isEmpty then Except.error PyErr.valueError
  else if asg.isEmpty then Except.error PyErr.keyError
  else
    let base := batches.enum.flatMap (fun p => p.2.map (fun s => (s.name, p.1 + 1)))
    Except.ok (base.map (fun r =>
      ⟨r.1, r.2, (List.range' 1 (maxWeek asg)).map (fun w => weekTopicCell asg w r.2)⟩))

/-- Embedding of export_batches_individually (lines 104 to 113): one archive
entry per batch, numbered by creation order starting at 1 (the code names the
entry Batch_i.csv), carrying that batch's rows. -/
def export_batches_individually (batches : List (List Student)) : List (ℕ × List Student) :=
  batches.enum.map (fun p => (p.1 + 1, p.2))

/-- The tail of the main flow (lines 125 to 139) from the batch list on:
assign topics, build the combined table, then build the archive.  An error
anywhere stops the run with no table and no archive. -/
def runFromBatches (batches : List (List Student)) (topics : List Topic) (weeks : ℕ) :
    Except PyErr (List OutputRow × List (ℕ × List Student)) :=
  match assign_topics batches topics weeks with
  | Except.error e => Except.error e
  | Except.ok asg =>
    match prepare_output batches asg with
    | Except.error e => Except.error e
    | Except.ok tbl => Except.ok (tbl, export_batches_individually batches)

/-- Evaluation helper: a string that parses as a decimal literal evaluates
to the value of that literal. -/
theorem evalPy_of_parseLit {l : List Char} {d : DecLit}
    (h : parseLit l = some d) : evalPy l = Except.ok d.val := by
  unfold evalPy
  simp only [h]

/-- Evaluation helper: the normalizer on a string splitting into at least two
parts whose first two evaluate to a and a nonzero b returns a / b * 100. -/
theorem normalize_score_eq {x p0 p1 : List Char} {rest : List (List Char)} {a b : ℚ}
    (hs : splitOnChar ('/') x = p0 :: p1 :: rest)
    (ha : evalPy (trimChars p0) = Except.ok a)
    (hb : evalPy (trimChars p1) = Except.ok b) (hb0 : b ≠ 0) :
    normalize_score x = Except.ok (a / b * 100) := by
  unfold normalize_score
  rw [hs]
  dsimp only
  rw [ha]
  dsimp only
  rw [hb]
  dsimp only
  rw [if_neg hb0]

/-- Dropping the minimum of n and the length is the same as dropping n. -/
theorem drop_min_length {α : Type} (l : List α) (n : ℕ) :
    l.drop (min n l.length) = l.drop n := by
  rcases le_total n l.length with h | h
  · rw [min_eq_left h]
  · rw [min_eq_right h, List.drop_length, List.drop_eq_nil_of_le h]

/-- In a batch carved from homogeneous pools, the High count is the number of
rows actually taken from the High pool. -/
theorem dropCount_takeBatch_high (H M L : List Student)
    (hH : ∀ s ∈ H, s.category = some Tier.High)
    (hM : ∀ s ∈ M, s.category = some Tier.Medium)
    (hL : ∀ s ∈ L, s.category = some Tier.Low) :
    dropCount (takeBatch H M L) Tier.High = min 2 H.length := by
  unfold dropCount takeBatch
  rw [List.countP_append, List.countP_append]
  have h1 : List.countP (fun s => s.category == some Tier.High) (H.take 2) =
      (H.take 2).length :=
    List.countP_eq_length.2 (fun a ha => by
      rw [hH a (List.take_subset 2 H ha)]; simp)
  have h2 : List.countP (fun s => s.category == some Tier.High) (M.take 2) = 0 :=
    List.countP_eq_zero.2 (fun a ha => by
      rw [hM a (List.take_subset 2 M ha)]; simp)
  have h3 : List.countP (fun s => s.category == some Tier.High) (L.take 1) = 0 :=
    List.countP_eq_zero.2 (fun a ha => by
      rw [hL a (List.take_subset 1 L ha)]; simp)
  rw [h1, h2, h3, List.length_take]
  omega

/-- In a batch carved from homogeneous pools, the Medium count is the number
of rows actually taken from the Medium pool. -/
theorem dropCount_takeBatch_medium (H M L : List Student)
    (hH : ∀ s ∈ H, s.category = some Tier.High)
    (hM : ∀ s ∈ M, s.category = some Tier.Medium)
    (hL : ∀ s ∈ L, s.category = some Tier.Low) :
    dropCount (takeBatch H M L) Tier.Medium = min 2 M.length := by
  unfold dropCount takeBatch
  rw [List.countP_append, List.countP_append]
  have h1 : List.countP (fun s => s.category == some Tier.Medium) (H.take 2) = 0 :=
    List.countP_eq_zero.2 (fun a ha => by
      rw [hH a (List.take_subset 2 H ha)]; simp)
  have h2 : List.countP (fun s => s.category == some Tier.Medium) (M.take 2) =
      (M.take 2).length :=
    List.countP_eq_length.2 (fun a ha => by
      rw [hM a (List.take_subset 2 M ha)]; simp)
  have h3 : List.countP (fun s => s.category == some Tier.Medium) (L.take 1) = 0 :=
    List.countP_eq_zero.2 (fun a ha => by
      rw [hL a (List.take_subset 1 L ha)]; simp)
  rw [h1, h2, h3, List.length_take]
  omega

/-- In a batch carved from homogeneous pools, the Low count is the number of
rows actually taken from the Low pool. -/
theorem dropCount_takeBatch_low (H M L : List Student)
    (hH : ∀ s ∈ H, s.category = some Tier.High)
    (hM : ∀ s ∈ M, s.category = some Tier.Medium)
    (hL : ∀ s ∈ L, s.category = some Tier.Low) :
    dropCount (takeBatch H M L) Tier.Low = min 1 L.length := by
  unfold dropCount takeBatch
  rw [List.countP_append, List.countP_append]
  have h1 : List.countP (fun s => s.category == some Tier.Low) (H.take 2) = 0 :=
    List.countP_eq_zero.2 (fun a ha => by
      rw [hH a (List.take_subset 2 H ha)]; simp)
  have h2 : List.countP (fun s => s.category == some Tier.Low) (M.take 2) = 0 :=
    List.countP_eq_zero.2 (fun a ha => by
      rw [hM a (List.take_subset 2 M ha)]; simp)
  have h3 : List.countP (fun s => s.category == some Tier.Low) (L.take 1) =
      (L.take 1).length :=
    List.countP_eq_length.2 (fun a ha => by
      rw [hL a (List.take_subset 1 L ha)]; simp)
  rw [h1, h2, h3, List.length_take]
  omega

/-- A batch carved off while some pool is non-empty is itself non-empty. -/
theorem takeBatch_ne_nil {H M L : List Student}
    (hne : ¬(H = [] ∧ M = [] ∧ L = [])) : takeBatch H M L ≠ [] := by
  unfold takeBatch
  intro hcon
  rcases List.append_eq_nil.1 hcon with ⟨hcon12, hcon3⟩
  rcases List.append_eq_nil.1 hcon12 with ⟨hcon1, hcon2⟩
  exact hne ⟨(List.take_eq_nil_iff.1 hcon1).resolve_left (by omega),
    (List.take_eq_nil_iff.1 hcon2).resolve_left (by omega),
    (List.take_eq_nil_iff.1 hcon3).resolve_left (by omega)⟩

/-- On all-empty pools the loop exits at once, whatever the fuel. -/
theorem batchLoopF_nil (fuel : ℕ) : batchLoopF fuel [] [] [] = [] := by
  cases fuel <;> simp [batchLoopF]

/-- One unfolding of the while loop on homogeneous, not-all-empty pools: emit
the carved batch and advance each pool by exactly what was taken (two High,
two Medium, one Low, fewer when a pool is short). -/
theorem batchLoopF_succ (fuel : ℕ) (H M L : List Student)
    (hH : ∀ s ∈ H, s.category = some Tier.High)
    (hM : ∀ s ∈ M, s.category = some Tier.Medium)
    (hL : ∀ s ∈ L, s.category = some Tier.Low)
    (hne : ¬(H = [] ∧ M = [] ∧ L = [])) :
    batchLoopF (fuel + 1) H M L =
      takeBatch H M L :: batchLoopF fuel (H.drop 2) (M.drop 2) (L.drop 1) := by
  have hcond : H.length > 0 ∨ M.length > 0 ∨ L.length > 0 := by
    by_contra hc
    push_neg at hc
    exact hne ⟨List.length_eq_zero.1 (by omega), List.length_eq_zero.1 (by omega),
      List.length_eq_zero.1 (by omega)⟩
  have hbatch : (takeBatch H M L).isEmpty = false := by
    rw [List.isEmpty_eq_false_iff_exists_mem]
    rcases List.exists_mem_of_ne_nil _ (takeBatch_ne_nil hne) with ⟨x, hx⟩
    exact ⟨x, hx⟩
  show (if H.length > 0 ∨ M.length > 0 ∨ L.length > 0 then _ else _) = _
  rw [if_pos hcond]
  simp only [hbatch]
  rw [dropCount_takeBatch_high H M L hH hM hL, dropCount_takeBatch_medium H M L hH hM hL,
    dropCount_takeBatch_low H M L hH hM hL, drop_min_length, drop_min_length,
    drop_min_length]
  simp

/-- The fuelled loop stabilizes once the fuel reaches the total pool size:
running with any larger fuel gives the same batches, so the fuelled embedding
computes the limit of the unbounded while loop and that loop terminates. -/
theorem batchLoopF_stable (fuel : ℕ) : ∀ H M L : List Student,
    (∀ s ∈ H, s.category = some Tier.High) →
    (∀ s ∈ M, s.category = some Tier.Medium) →
    (∀ s ∈ L, s.category = some Tier.Low) →
    H.length + M.length + L.length ≤ fuel →
    batchLoopF fuel H M L = batchLoopF (H.length + M.length + L.length) H M L := by
  induction fuel using Nat.strong_induction_on with
  | _ fuel ih =>
    intro H M L hH hM hL hfuel
    by_cases hne : H = [] ∧ M = [] ∧ L = []
    · rcases hne with ⟨h1, h2, h3⟩
      subst h1; subst h2; subst h3
      simp [batchLoopF_nil]
    · have hpos : 1 ≤ H.length + M.length + L.length := by
        by_contra hc
        push_neg at hc
        exact hne ⟨List.length_eq_zero.1 (by omega), List.length_eq_zero.1 (by omega),
          List.length_eq_zero.1 (by omega)⟩
      obtain ⟨f, rfl⟩ : ∃ f, fuel = f + 1 := ⟨fuel - 1, by omega⟩
      obtain ⟨m, hm⟩ : ∃ m, H.length + M.length + L.length = m + 1 :=
        ⟨H.length + M.length + L.length - 1, by omega⟩
      rw [hm, batchLoopF_succ f H M L hH hM hL hne, batchLoopF_succ m H M L hH hM hL hne]
      have hH2 : ∀ s ∈ H.drop 2, s.category = some Tier.High :=
        fun s hs => hH s (List.drop_subset 2 H hs)
      have hM2 : ∀ s ∈ M.drop 2, s.category = some Tier.Medium :=
        fun s hs => hM s (List.drop_subset 2 M hs)
      have hL2 : ∀ s ∈ L.drop 1, s.category = some Tier.Low :=
        fun s hs => hL s (List.drop_subset 1 L hs)
      have hlen : (H.drop 2).length + (M.drop 2).length + (L.drop 1).length ≤ m := by
        rw [List.length_drop, List.length_drop, List.length_drop]
        omega
      rw [ih f (by omega) (H.drop 2) (M.drop 2) (L.drop 1) hH2 hM2 hL2 (by omega),
        ih m (by omega) (H.drop 2) (M.drop 2) (L.drop 1) hH2 hM2 hL2 hlen]

/-- With enough fuel the loop distributes every pool row into the batches:
the flattened batches are, as a multiset, exactly the three pools. -/
theorem batchLoopF_flatten (fuel : ℕ) : ∀ H M L : List Student,
    (∀ s ∈ H, s.category = some Tier.High) →
    (∀ s ∈ M, s.category = some Tier.Medium) →
    (∀ s ∈ L, s.category = some Tier.Low) →
    H.length + M.length + L.length ≤ fuel →
    ((batchLoopF fuel H M L).flatten : Multiset Student) =
      (H : Multiset Student) + (M : Multiset Student) + (L : Multiset Student) := by
  induction fuel using Nat.strong_induction_on with
  | _ fuel ih =>
    intro H M L hH hM hL hfuel
    by_cases hne : H = [] ∧ M = [] ∧ L = []
    · rcases hne with ⟨h1, h2, h3⟩
      subst h1; subst h2; subst h3
      simp [batchLoopF_nil]
    · have hpos : 1 ≤ H.length + M.length + L.length := by
        by_contra hc
        push_neg at hc
        exact hne ⟨List.length_eq_zero.1 (by omega), List.length_eq_zero.1 (by omega),
          List.length_eq_zero.1 (by omega)⟩
      obtain ⟨f, rfl⟩ : ∃ f, fuel = f + 1 := ⟨fuel - 1, by omega⟩
      rw [batchLoopF_succ f H M L hH hM hL hne, List.flatten_cons]
      have hH2 : ∀ s ∈ H.drop 2, s.category = some Tier.High :=
        fun s hs => hH s (List.drop_subset 2 H hs)
      have hM2 : ∀ s ∈ M.drop 2, s.category = some Tier.Medium :=
        fun s hs => hM s (List.drop_subset 2 M hs)
      have hL2 : ∀ s ∈ L.drop 1, s.category = some Tier.Low :=
        fun s hs => hL s (List.drop_subset 1 L hs)
      have hrec := ih f (by omega) (H.drop 2) (M.drop 2) (L.drop 1) hH2 hM2 hL2 (by
        rw [List.length_drop, List.length_drop, List.length_drop]; omega)
      rw [← Multiset.coe_add, hrec]
      unfold takeBatch
      rw [← Multiset.coe_add, ← Multiset.coe_add]
      have e1 : ((H.take 2 : List Student) : Multiset Student) + (H.drop 2 : List Student) =
          (H : Multiset Student) := by rw [Multiset.coe_add, List.take_append_drop]
      have e2 : ((M.take 2 : List Student) : Multiset Student) + (M.drop 2 : List Student) =
          (M : Multiset Student) := by rw [Multiset.coe_add, List.take_append_drop]
      have e3 : ((L.take 1 : List Student) : Multiset Student) + (L.drop 1 : List Student) =
          (L : Multiset Student) := by rw [Multiset.coe_add, List.take_append_drop]
      rw [← e1, ← e2, ← e3]
      abel

/-- Every row of every emitted batch comes from one of the three pools. -/
theorem mem_of_mem_batchLoopF (fuel : ℕ) : ∀ H M L b : List Student, ∀ x : Student,
    b ∈ batchLoopF fuel H M L → x ∈ b → x ∈ H ∨ x ∈ M ∨ x ∈ L := by
  induction fuel with
  | zero => intro H M L b x hb; simp [batchLoopF] at hb
  | succ f ih =>
    intro H M L b x hb hx
    rw [show batchLoopF (f + 1) H M L =
        (if H.length > 0 ∨ M.length > 0 ∨ L.length > 0 then
          (if (takeBatch H M L).isEmpty then [] else [takeBatch H M L]) ++
            batchLoopF f (H.drop (dropCount (takeBatch H M L) Tier.High))
              (M.drop (dropCount (takeBatch H M L) Tier.Medium))
              (L.drop (dropCount (takeBatch H M L) Tier.Low))
        else []) from rfl] at hb
    by_cases hcond : H.length > 0 ∨ M.length > 0 ∨ L.length > 0
    · rw [if_pos hcond, List.mem_append] at hb
      rcases hb with hb | hb
      · have hb2 : b = takeBatch H M L := by
          by_cases he : (takeBatch H M L).isEmpty
          · rw [if_pos he] at hb; simp at hb
          · rw [if_neg he] at hb; simpa using hb
        subst hb2
        unfold takeBatch at hx
        rw [List.mem_append, List.mem_append] at hx
        rcases hx with (hx | hx) | hx
        · exact Or.inl (List.take_subset 2 H hx)
        · exact Or.inr (Or.inl (List.take_subset 2 M hx))
        · exact Or.inr (Or.inr (List.take_subset 1 L hx))
      · rcases ih _ _ _ b x hb hx with h | h | h
        · exact Or.inl (List.drop_subset _ H h)
        · exact Or.inr (Or.inl (List.drop_subset _ M h))
        · exact Or.inr (Or.inr (List.drop_subset _ L h))
    · rw [if_neg hcond] at hb; simp at hb

/-- Every emitted batch respects the per-tier quota and is non-empty. -/
theorem batchLoopF_quota (fuel : ℕ) : ∀ H M L b : List Student,
    (∀ s ∈ H, s.category = some Tier.High) →
    (∀ s ∈ M, s.category = some Tier.Medium) →
    (∀ s ∈ L, s.category = some Tier.Low) →
    b ∈ batchLoopF fuel H M L →
    dropCount b Tier.High ≤ 2 ∧ dropCount b Tier.Medium ≤ 2 ∧
      dropCount b Tier.Low ≤ 1 ∧ b ≠ [] := by
  induction fuel with
  | zero => intro H M L b hH hM hL hb; simp [batchLoopF] at hb
  | succ f ih =>
    intro H M L b hH hM hL hb
    by_cases hne : H = [] ∧ M = [] ∧ L = []
    · rcases hne with ⟨h1, h2, h3⟩
      subst h1; subst h2; subst h3
      rw [batchLoopF_nil] at hb
      simp at hb
    · rw [batchLoopF_succ f H M L hH hM hL hne, List.mem_cons] at hb
      rcases hb with hb | hb
      · subst hb
        refine ⟨?_, ?_, ?_, takeBatch_ne_nil hne⟩
        · rw [dropCount_takeBatch_high H M L hH hM hL]; omega
        · rw [dropCount_takeBatch_medium H M L hH hM hL]; omega
        · rw [dropCount_takeBatch_low H M L hH hM hL]; omega
      · exact ih _ _ _ b (fun s hs => hH s (List.drop_subset 2 H hs))
          (fun s hs => hM s (List.drop_subset 2 M hs))
          (fun s hs => hL s (List.drop_subset 1 L hs)) hb

/-- The filtered pools of create_balanced_batches are homogeneous. -/
theorem hiPool_homog (data : List Student) :
    ∀ s ∈ hiPool data, s.category = some Tier.High := by
  intro s hs
  have h := List.mem_filter.1 hs
  exact eq_of_beq h.2

/-- The Medium pool is homogeneous. -/
theorem mdPool_homog (data : List Student) :
    ∀ s ∈ mdPool data, s.category = some Tier.Medium := by
  intro s hs
  have h := List.mem_filter.1 hs
  exact eq_of_beq h.2

/-- The Low pool is homogeneous. -/
theorem loPool_homog (data : List Student) :
    ∀ s ∈ loPool data, s.category = some Tier.Low := by
  intro s hs
  have h := List.mem_filter.1 hs
  exact eq_of_beq h.2

/-- On a non-empty topic list, next always succeeds and yields the element at
the pointer modulo the topic count. -/
theorem nextCycle_ok {topics : List Topic} (h : topics ≠ []) (k : ℕ) :
    ∃ t : Topic, topics.get? (k % topics.length) = some t ∧
      nextCycle topics k = Except.ok (t, k + 1) ∧ t.title = titleAtD topics k := by
  have hlen : 0 < topics.length := List.length_pos.2 h
  have hk : k % topics.length < topics.length := Nat.mod_lt _ hlen
  cases h2 : topics.get? (k % topics.length) with
  | none => rw [List.get?_eq_none] at h2; omega
  | some t =>
    refine ⟨t, rfl, ?_, ?_⟩
    · unfold nextCycle; rw [h2]
    · unfold titleAtD; rw [h2]; rfl

/-- With a non-empty topic list the assignment loop never fails and produces
exactly its reference form. -/
theorem assignLoop_eq_spec {topics : List Topic} (h : topics ≠ []) :
    ∀ ps : List (ℕ × ℕ), ∀ k : ℕ,
      assignLoop topics ps k = Except.ok (assignSpec topics ps k) := by
  intro ps
  induction ps with
  | nil => intro k; rfl
  | cons p rest ih =>
    intro k
    obtain ⟨w, i⟩ := p
    obtain ⟨t, ht, hnc, htitle⟩ := nextCycle_ok h k
    unfold assignLoop
    rw [hnc]
    dsimp only
    rw [ih (k + 1)]
    dsimp only
    show Except.ok (⟨w, i + 1, t.title⟩ :: assignSpec topics rest (k + 1)) =
      Except.ok (assignSpec topics ((w, i) :: rest) k)
    rw [htitle]
    rfl

/-- The reference assignment list has one entry per iteration pair. -/
theorem assignSpec_length (topics : List Topic) :
    ∀ ps : List (ℕ × ℕ), ∀ k : ℕ, (assignSpec topics ps k).length = ps.length := by
  intro ps
  induction ps with
  | nil => intro k; rfl
  | cons p rest ih =>
    intro k
    obtain ⟨w, i⟩ := p
    simp [assignSpec, ih (k + 1)]

/-- Entry n of the reference assignment list: the n-th iteration pair with
the topic at pointer position base plus n. -/
theorem assignSpec_getElem? (topics : List Topic) :
    ∀ ps : List (ℕ × ℕ), ∀ k n : ℕ,
      (assignSpec topics ps k)[n]? =
        (ps[n]?).map (fun p => ⟨p.1, p.2 + 1, titleAtD topics (k + n)⟩) := by
  intro ps
  induction ps with
  | nil => intro k n; simp [assignSpec]
  | cons p rest ih =>
    intro k n
    obtain ⟨w, i⟩ := p
    cases n with
    | zero => simp [assignSpec]
    | succ m =>
      simp only [assignSpec, List.getElem?_cons_succ]
      rw [ih (k + 1) m, show k + 1 + m = k + (m + 1) from by omega]

/-- The reference assignment list distributes over appended pair lists, the
pointer advancing by the length of the first part. -/
theorem assignSpec_append (topics : List Topic) :
    ∀ ps qs : List (ℕ × ℕ), ∀ k : ℕ,
      assignSpec topics (ps ++ qs) k =
        assignSpec topics ps k ++ assignSpec topics qs (k + ps.length) := by
  intro ps
  induction ps with
  | nil => intro qs k; simp [assignSpec]
  | cons p rest ih =>
    intro qs k
    obtain ⟨w, i⟩ := p
    simp only [List.cons_append, assignSpec, List.length_cons, List.append_eq]
    rw [ih qs (k + 1), show k + 1 + rest.length = k + (rest.length + 1) from by omega]

/-- Unfolding the iteration order one week at the end. -/
theorem weekBatchPairs_succ (W nB : ℕ) :
    weekBatchPairs (W + 1) nB =
      weekBatchPairs W nB ++ (List.range nB).map (fun i => (W + 1, i)) := by
  unfold weekBatchPairs
  rw [List.range'_concat, show 1 + 1 * W = W + 1 from by omega, List.flatMap_append]
  simp

/-- The iteration order has weeks times batch-count pairs. -/
theorem weekBatchPairs_length (W nB : ℕ) : (weekBatchPairs W nB).length = W * nB := by
  induction W with
  | zero => simp [weekBatchPairs]
  | succ W ih =>
    rw [weekBatchPairs_succ]
    simp [ih]
    ring

/-- The n-th iteration pair of the flattened order: week n over nB plus one,
batch index n modulo nB. -/
theorem weekBatchPairs_getElem? (nB : ℕ) : ∀ W n : ℕ, n < W * nB →
    (weekBatchPairs W nB)[n]? = some (n / nB + 1, n % nB) := by
  intro W
  induction W with
  | zero => intro n hn; simp at hn
  | succ W ih =>
    intro n hn
    rw [weekBatchPairs_succ]
    by_cases hcase : n < W * nB
    · rw [List.getElem?_append_left (by rw [weekBatchPairs_length]; exact hcase)]
      exact ih n hcase
    · have hB : 0 < nB := by
        rcases Nat.eq_zero_or_pos nB with h0 | h0
        · subst h0; simp at hn
        · exact h0
      have hge : W * nB ≤ n := le_of_not_lt hcase
      have hn2 : n < W * nB + nB := by
        have : (W + 1) * nB = W * nB + nB := by ring
        omega
      rw [List.getElem?_append_right (by rw [weekBatchPairs_length]; exact hge)]
      rw [weekBatchPairs_length, List.getElem?_map,
        List.getElem?_range (by omega : n - W * nB < nB)]
      have hsplit : n = (n - W * nB) + nB * W := by
        have : nB * W = W * nB := by ring
        omega
      have e1 : n / nB = W := by
        rw [hsplit, Nat.add_mul_div_left _ _ hB, Nat.div_eq_of_lt (by omega)]
        omega
      have e2 : n % nB = n - W * nB := by
        rw [hsplit, Nat.add_mul_mod_self_left, Nat.mod_eq_of_lt (by omega)]
        omega
      rw [e1, e2]
      rfl

/-- C1: for every batch sequence of length B, non-empty topic list of size T
and week count W at least 1, assign_topics succeeds with exactly W times B
assignments, one per (week, batch) pair in flattened order (weeks outer,
batches in creation order inner), and the k-th assignment names week
k / B + 1, batch k % B + 1 and the topic at index k modulo T: the cyclic
pointer is shared across the whole run and is not reset between weeks. -/
theorem assign_topics_rotation (batches : List (List Student)) (topics : List Topic)
    (weeks : ℕ) (htop : topics ≠ []) (hweeks : 1 ≤ weeks) :
    ∃ asg : List Assignment,
      assign_topics batches topics weeks = Except.ok asg ∧
      asg.length = weeks * batches.length ∧
      ∀ k : ℕ, k < weeks * batches.length →
        ∃ t : Topic, topics.get? (k % topics.length) = some t ∧
          asg[k]? = some ⟨k / batches.length + 1, k % batches.length + 1, t.title⟩ := by
  refine ⟨assignSpec topics (weekBatchPairs weeks batches.length) 0,
    assignLoop_eq_spec htop _ 0, ?_, ?_⟩
  · rw [assignSpec_length, weekBatchPairs_length]
  · intro k hk
    obtain ⟨t, ht, _, htitle⟩ := nextCycle_ok htop k
    refine ⟨t, ht, ?_⟩
    rw [assignSpec_getElem?, weekBatchPairs_getElem? _ _ _ hk]
    rw [show (0 + k) = k from by omega, ← htitle]
    rfl

/-- Witness for C1 at one batch, one topic and two weeks. -/
theorem assign_topics_rotation_witness :
    ∃ asg : List Assignment,
      assign_topics [[⟨ "a", 90, some Tier.High⟩]] [⟨ "T1", "d"⟩] 2 = Except.ok asg ∧
      asg.length = 2 * [[(⟨ "a", 90, some Tier.High⟩ : Student)]].length ∧
      ∀ k : ℕ, k < 2 * [[(⟨ "a", 90, some Tier.High⟩ : Student)]].length →
        ∃ t : Topic,
          [(⟨ "T1", "d"⟩ : Topic)].get? (k % [(⟨ "T1", "d"⟩ : Topic)].length) = some t ∧
          asg[k]? = some ⟨k / [[(⟨ "a", 90, some Tier.High⟩ : Student)]].length + 1,
            k % [[(⟨ "a", 90, some Tier.High⟩ : Student)]].length + 1, t.title⟩ :=
  assign_topics_rotation [[⟨ "a", 90, some Tier.High⟩]] [⟨ "T1", "d"⟩] 2
    (by decide) (by decide)

/-- The iteration order is empty when there are no batches. -/
theorem weekBatchPairs_zero_batches (W : ℕ) : weekBatchPairs W 0 = [] := by
  unfold weekBatchPairs
  simp

/-- C7: with an empty topic list the tail of the run fails before any table
or archive is produced, for every batch sequence and week count.  With at
least one batch and one week the first next call on the empty cycle raises
StopIteration; with no batches the table concat raises a ValueError; with
zero weeks the empty assignment frame raises a KeyError. -/
theorem run_fails_on_empty_topics (batches : List (List Student)) (weeks : ℕ) :
    ∃ e : PyErr, runFromBatches batches [] weeks = Except.error e := by
  by_cases hB : batches = []
  · subst hB
    refine ⟨PyErr.valueError, ?_⟩
    unfold runFromBatches assign_topics
    rw [List.length_nil, weekBatchPairs_zero_batches]
    rfl
  · cases weeks with
    | zero =>
      refine ⟨PyErr.keyError, ?_⟩
      have hBe : batches.isEmpty = false := by
        rw [List.isEmpty_eq_false_iff_exists_mem]
        exact List.exists_mem_of_ne_nil _ hB
      unfold runFromBatches assign_topics
      rw [show weekBatchPairs 0 batches.length = [] from rfl]
      show (match prepare_output batches [] with
        | Except.error e => Except.error e
        | Except.ok tbl => Except.ok (tbl, export_batches_individually batches)) =
          Except.error PyErr.keyError
      unfold prepare_output
      rw [hBe]
      rfl
    | succ w =>
      refine ⟨PyErr.stopIteration, ?_⟩
      have hBpos : 0 < batches.length := List.length_pos.2 hB
      have hlen : 0 < (weekBatchPairs (w + 1) batches.length).length := by
        rw [weekBatchPairs_length]
        exact Nat.mul_pos (Nat.succ_pos w) hBpos
      obtain ⟨p, rest, hps⟩ : ∃ p rest, weekBatchPairs (w + 1) batches.length = p :: rest := by
        cases hcase : weekBatchPairs (w + 1) batches.length with
        | nil => rw [hcase] at hlen; simp at hlen
        | cons p rest => exact ⟨p, rest, rfl⟩
      unfold runFromBatches assign_topics
      rw [hps]
      obtain ⟨pw, pi⟩ := p
      rfl

/-- Closed form of the rotator output: the k-th assignment of the flattened
run is week k / B + 1, batch k % B + 1, topic at pointer k. -/
theorem assignSpec_pairs_eq_map (topics : List Topic) (W nB : ℕ) :
    assignSpec topics (weekBatchPairs W nB) 0 =
      (List.range (W * nB)).map (fun k =>
        (⟨k / nB + 1, k % nB + 1, titleAtD topics k⟩ : Assignment)) := by
  apply List.ext_getElem?
  intro n
  by_cases hn : n < W * nB
  · rw [assignSpec_getElem?, weekBatchPairs_getElem? _ _ _ hn, List.getElem?_map,
      List.getElem?_range hn, show (0 + n) = n from by omega]
    rfl
  · rw [assignSpec_getElem?,
      List.getElem?_eq_none (by rw [weekBatchPairs_length]; omega),
      List.getElem?_eq_none (by rw [List.length_map, List.length_range]; omega)]
    rfl

/-- Restricting the flattened index range to one week's block. -/
theorem filter_week_range (W B w : ℕ) (hB : 0 < B) (hw1 : 1 ≤ w) (hwW : w ≤ W) :
    (List.range (W * B)).filter (fun k => k / B + 1 == w) =
      List.range' ((w - 1) * B) B := by
  obtain ⟨u, rfl⟩ : ∃ u, w = u + 1 := ⟨w - 1, by omega⟩
  have hsplit : W * B = u * B + (B + (W - (u + 1)) * B) := by
    have hW : W = u + 1 + (W - (u + 1)) := by omega
    conv_lhs => rw [hW]
    ring
  rw [hsplit, List.range_add, List.range_add, List.map_append, List.map_map,
    List.filter_append, List.filter_append]
  have f1 : (List.range (u * B)).filter (fun k => k / B + 1 == u + 1) = [] := by
    rw [List.filter_eq_nil]
    intro k hk
    have hklt : k < u * B := List.mem_range.1 hk
    have : k / B < u := (Nat.div_lt_iff_lt_mul hB).2 hklt
    rw [beq_eq_false_iff_ne.2 (by omega)]
    simp
  have f2 : ((List.range B).map (fun x => u * B + x)).filter
      (fun k => k / B + 1 == u + 1) = (List.range B).map (fun x => u * B + x) := by
    rw [List.filter_eq_self]
    intro a ha
    obtain ⟨j, hj, rfl⟩ := List.mem_map.1 ha
    have hjB : j < B := List.mem_range.1 hj
    have hdiv : (u * B + j) / B = u := by
      rw [show u * B + j = j + B * u from by ring, Nat.add_mul_div_left _ _ hB,
        Nat.div_eq_of_lt hjB]
      omega
    rw [hdiv]
    simp
  have hcomp : ((fun x : ℕ => u * B + x) ∘ fun x : ℕ => B + x) =
      (fun x : ℕ => u * B + (B + x)) := by
    funext x
    simp [Function.comp]
  have f3 : ((List.range ((W - (u + 1)) * B)).map
      (fun x : ℕ => u * B + (B + x))).filter
      (fun k => k / B + 1 == u + 1) = [] := by
    rw [List.filter_eq_nil]
    intro a ha
    obtain ⟨j, hj, rfl⟩ := List.mem_map.1 ha
    have hdiv : (u * B + (B + j)) / B = u + 1 + j / B := by
      rw [show u * B + (B + j) = j + B * (u + 1) from by ring,
        Nat.add_mul_div_left _ _ hB]
      omega
    simp only [beq_iff_eq]
    show ¬((u * B + (B + j)) / B + 1 = u + 1)
    rw [hdiv]
    clear hdiv ha hj
    generalize j / B = d
    omega
  rw [hcomp, f1, f2, f3, List.range'_eq_map_range]
  simp

/-- find? only looks at the predicate values on the list. -/
theorem find?_congr_list {α : Type} (p q : α → Bool) :
    ∀ l : List α, (∀ x ∈ l, p x = q x) → l.find? p = l.find? q := by
  intro l
  induction l with
  | nil => intro h; rfl
  | cons a l ih =>
    intro h
    rw [List.find?_cons, List.find?_cons, h a (List.mem_cons_self a l)]
    cases q a
    · exact ih (fun x hx => h x (List.mem_cons_of_mem a hx))
    · rfl

/-- Scanning the range for an index finds exactly that index. -/
theorem find?_beq_range (B i : ℕ) (h : i < B) :
    (List.range B).find? (fun j => j == i) = some i := by
  induction B with
  | zero => omega
  | succ B ih =>
    rw [List.range_succ, List.find?_append]
    by_cases hi : i < B
    · rw [ih hi]
      rfl
    · have hieq : i = B := by omega
      subst hieq
      have hnone : (List.range i).find? (fun j => j == i) = none := by
        rw [List.find?_eq_none]
        intro j hj
        have : j < i := List.mem_range.1 hj
        rw [beq_eq_false_iff_ne.2 (by omega)]
        simp
      rw [hnone, Option.none_or]
      simp [List.find?]

/-- Cell lookup on the rotator output: within week w, batch i + 1 is mapped
to the topic at pointer (w - 1) * B + i. -/
theorem weekTopicCell_spec (topics : List Topic) (W B w i : ℕ)
    (hw1 : 1 ≤ w) (hwW : w ≤ W) (hi : i < B) :
    weekTopicCell (assignSpec topics (weekBatchPairs W B) 0) w (i + 1) =
      some (titleAtD topics ((w - 1) * B + i)) := by
  have hB : 0 < B := by omega
  unfold weekTopicCell
  rw [assignSpec_pairs_eq_map, List.filter_map]
  rw [show ((fun a : Assignment => a.week == w) ∘ (fun k =>
      (⟨k / B + 1, k % B + 1, titleAtD topics k⟩ : Assignment))) =
      (fun k => k / B + 1 == w) from rfl]
  rw [filter_week_range W B w hB hw1 hwW, List.find?_map, List.range'_eq_map_range,
    List.find?_map]
  rw [find?_congr_list _ (fun j => j == i) (List.range B) ?hcong]
  case hcong =>
    intro j hj
    have hjB : j < B := List.mem_range.1 hj
    have hmod : ((w - 1) * B + j) % B = j := by
      rw [show (w - 1) * B + j = j + B * (w - 1) from by ring,
        Nat.add_mul_mod_self_left, Nat.mod_eq_of_lt hjB]
    show (((w - 1) * B + j) % B + 1 == i + 1) = (j == i)
    rw [hmod, Bool.eq_iff_iff]
    simp only [beq_iff_eq]
    omega
  rw [find?_beq_range B i hi]
  rfl

/-- A running maximum stays below any common upper bound. -/
theorem foldl_max_le (f : Assignment → ℕ) (c : ℕ) :
    ∀ (l : List Assignment) (a : ℕ), a ≤ c → (∀ x ∈ l, f x ≤ c) →
      l.foldl (fun m x => max m (f x)) a ≤ c := by
  intro l
  induction l with
  | nil => intro a ha _; simpa using ha
  | cons x l ih =>
    intro a ha hall
    show List.foldl _ (max a (f x)) l ≤ c
    exact ih (max a (f x)) (max_le ha (hall x (List.mem_cons_self x l)))
      (fun y hy => hall y (List.mem_cons_of_mem x hy))

/-- A running maximum dominates its seed. -/
theorem le_foldl_max (f : Assignment → ℕ) :
    ∀ (l : List Assignment) (a : ℕ), a ≤ l.foldl (fun m x => max m (f x)) a := by
  intro l
  induction l with
  | nil => intro a; simp
  | cons x l ih =>
    intro a
    show a ≤ List.foldl _ (max a (f x)) l
    exact le_trans (le_max_left a (f x)) (ih (max a (f x)))

/-- A running maximum dominates every listed value. -/
theorem mem_le_foldl_max (f : Assignment → ℕ) :
    ∀ (l : List Assignment) (a : ℕ) (x : Assignment), x ∈ l →
      f x ≤ l.foldl (fun m y => max m (f y)) a := by
  intro l
  induction l with
  | nil => intro a x hx; simp at hx
  | cons y l ih =>
    intro a x hx
    rcases List.mem_cons.1 hx with h | h
    · subst h
      show f x ≤ List.foldl _ (max a (f x)) l
      exact le_trans (le_max_right a (f x)) (le_foldl_max f l (max a (f x)))
    · exact ih (max a (f y)) x h

/-- The maximum assigned week of a full rotator run with at least one batch
and one week is the week count. -/
theorem maxWeek_flat (topics : List Topic) (W B : ℕ) (hW : 1 ≤ W) (hB : 1 ≤ B) :
    maxWeek ((List.range (W * B)).map (fun k =>
      (⟨k / B + 1, k % B + 1, titleAtD topics k⟩ : Assignment))) = W := by
  unfold maxWeek
  apply le_antisymm
  · apply foldl_max_le Assignment.week W _ 0 (Nat.zero_le W)
    intro x hx
    obtain ⟨k, hk, rfl⟩ := List.mem_map.1 hx
    have hkr : k < W * B := List.mem_range.1 hk
    show k / B + 1 ≤ W
    have : k / B < W := (Nat.div_lt_iff_lt_mul (by omega)).2 hkr
    omega
  · have hk0 : (W - 1) * B < W * B := by
      apply (Nat.mul_lt_mul_right (by omega : 0 < B)).2
      omega
    have hmem : (⟨(W - 1) * B / B + 1, (W - 1) * B % B + 1,
        titleAtD topics ((W - 1) * B)⟩ : Assignment) ∈
        (List.range (W * B)).map (fun k =>
          (⟨k / B + 1, k % B + 1, titleAtD topics k⟩ : Assignment)) :=
      List.mem_map_of_mem _ (List.mem_range.2 hk0)
    have hweek : (W - 1) * B / B + 1 = W := by
      rw [Nat.mul_div_cancel _ (by omega : 0 < B)]
      omega
    have hle := mem_le_foldl_max Assignment.week _ 0 _ hmem
    rw [show (Assignment.week ⟨(W - 1) * B / B + 1, (W - 1) * B % B + 1,
      titleAtD topics ((W - 1) * B)⟩) = (W - 1) * B / B + 1 from rfl, hweek] at hle
    exact hle

/-- C9: for every non-empty batch sequence, non-empty topic list and week
count W at least 1, the composer succeeds and its table is exactly one row
per batch member, in batch order, each row carrying the student name, the
1-based batch identifier, and one topic cell per week 1..W holding the topic
the rotator assigned to that batch that week; in particular every row has
exactly W topic columns. -/
theorem prepare_output_table (batches : List (List Student)) (topics : List Topic)
    (weeks : ℕ) (hB : batches ≠ []) (hw : 1 ≤ weeks) (htop : topics ≠ []) :
    ∃ asg : List Assignment,
      assign_topics batches topics weeks = Except.ok asg ∧
      prepare_output batches asg = Except.ok
        (batches.enum.flatMap (fun p => p.2.map (fun s =>
          (⟨s.name, p.1 + 1, (List.range' 1 weeks).map (fun w =>
            some (titleAtD topics ((w - 1) * batches.length + p.1)))⟩ : OutputRow)))) ∧
      ∀ row ∈ batches.enum.flatMap (fun p => p.2.map (fun s =>
          (⟨s.name, p.1 + 1, (List.range' 1 weeks).map (fun w =>
            some (titleAtD topics ((w - 1) * batches.length + p.1)))⟩ : OutputRow))),
        row.weekTopics.length = weeks := by
  have hBpos : 1 ≤ batches.length := List.length_pos.2 hB
  refine ⟨assignSpec topics (weekBatchPairs weeks batches.length) 0,
    assignLoop_eq_spec htop _ 0, ?_, ?_⟩
  · have hBe : batches.isEmpty = false := by
      rw [List.isEmpty_eq_false_iff_exists_mem]
      exact List.exists_mem_of_ne_nil _ hB
    have hasg : (assignSpec topics (weekBatchPairs weeks batches.length) 0).isEmpty
        = false := by
      rw [List.isEmpty_eq_false_iff_exists_mem]
      apply List.exists_mem_of_ne_nil
      intro hcon
      have := congrArg List.length hcon
      rw [assignSpec_length, weekBatchPairs_length, List.length_nil] at this
      have : 0 < weeks * batches.length := Nat.mul_pos hw hBpos
      omega
    have hmax : maxWeek (assignSpec topics (weekBatchPairs weeks batches.length) 0)
        = weeks := by
      rw [assignSpec_pairs_eq_map]
      exact maxWeek_flat topics weeks batches.length hw hBpos
    unfold prepare_output
    rw [hBe, hasg]
    show Except.ok _ = Except.ok _
    congr 1
    rw [hmax, List.map_flatMap]
    rw [List.flatMap_def, List.flatMap_def]
    apply congrArg List.flatten
    apply List.map_congr_left
    intro p hp
    rw [List.map_map]
    apply List.map_congr_left
    intro s hs
    have hpi : p.1 < batches.length := by
      obtain ⟨i, b⟩ := p
      exact (List.mem_enum hp).1
    show (⟨s.name, p.1 + 1, (List.range' 1 weeks).map (fun w =>
      weekTopicCell (assignSpec topics (weekBatchPairs weeks batches.length) 0)
        w (p.1 + 1))⟩ : OutputRow) = _
    refine congrArg (OutputRow.mk s.name (p.1 + 1)) ?_
    apply List.map_congr_left
    intro w hwmem
    have hwb := List.mem_range'_1.1 hwmem
    exact weekTopicCell_spec topics weeks batches.length w p.1 (by omega)
      (by omega) hpi
  · intro row hrow
    obtain ⟨p, hp, hrowp⟩ := List.mem_flatMap.1 hrow
    obtain ⟨s, hs, rfl⟩ := List.mem_map.1 hrowp
    show ((List.range' 1 weeks).map _).length = weeks
    rw [List.length_map, List.length_range']

/-- Witness for C9 at one batch, one topic and one week: the table holds one
row with one topic cell. -/
theorem prepare_output_table_witness :
    ∃ asg : List Assignment,
      assign_topics [[⟨ "a", 90, some Tier.High⟩]] [⟨ "T1", "d"⟩] 1 = Except.ok asg ∧
      prepare_output [[⟨ "a", 90, some Tier.High⟩]] asg =
        Except.ok [⟨ "a", 1, [some ( "T1")]⟩] := by
  obtain ⟨asg, h1, h2, _⟩ := prepare_output_table [[⟨ "a", 90, some Tier.High⟩]]
    [⟨ "T1", "d"⟩] 1 (by decide) (by decide) (by decide)
  refine ⟨asg, h1, ?_⟩
  rw [h2]
  rfl

/-- C2: the batches partition the pooled students: as a multiset, the union
of all emitted batches equals the union of the three tier pools, so no
student is duplicated and none is dropped. -/
theorem create_balanced_batches_union (data : List Student) :
    ((create_balanced_batches data).flatten : Multiset Student) =
      ((hiPool data : List Student) : Multiset Student) +
        ((mdPool data : List Student) : Multiset Student) +
        ((loPool data : List Student) : Multiset Student) := by
  unfold create_balanced_batches
  exact batchLoopF_flatten _ (hiPool data) (mdPool data) (loPool data)
    (hiPool_homog data) (mdPool_homog data) (loPool_homog data) (le_refl _)

/-- C3: every batch emitted by the batch builder holds at most 2 High rows,
at most 2 Medium rows and at most 1 Low row, and no emitted batch is
empty. -/
theorem create_balanced_batches_quota (data : List Student) (b : List Student)
    (hb : b ∈ create_balanced_batches data) :
    dropCount b Tier.High ≤ 2 ∧ dropCount b Tier.Medium ≤ 2 ∧
      dropCount b Tier.Low ≤ 1 ∧ b ≠ [] := by
  unfold create_balanced_batches at hb
  exact batchLoopF_quota _ _ _ _ b (hiPool_homog data) (mdPool_homog data)
    (loPool_homog data) hb

/-- Witness for C3 at a single High student. -/
theorem create_balanced_batches_quota_witness :
    [(⟨ "a", 90, some Tier.High⟩ : Student)] ∈
      create_balanced_batches [(⟨ "a", 90, some Tier.High⟩ : Student)] ∧
    (dropCount [(⟨ "a", 90, some Tier.High⟩ : Student)] Tier.High ≤ 2 ∧
      dropCount [(⟨ "a", 90, some Tier.High⟩ : Student)] Tier.Medium ≤ 2 ∧
      dropCount [(⟨ "a", 90, some Tier.High⟩ : Student)] Tier.Low ≤ 1 ∧
      [(⟨ "a", 90, some Tier.High⟩ : Student)] ≠ []) :=
  ⟨by decide, create_balanced_batches_quota [(⟨ "a", 90, some Tier.High⟩ : Student)]
    [(⟨ "a", 90, some Tier.High⟩ : Student)] (by decide)⟩

/-- C6: the batch builder's loop terminates: fuel equal to the total pool
size already computes the loop's limit (any larger fuel gives the same
batches), an iteration started from not-all-empty homogeneous pools takes at
least one student, and the loop stops exactly when all three pools are
simultaneously empty. -/
theorem batch_builder_terminates (H M L : List Student) (fuel : ℕ)
    (hH : ∀ s ∈ H, s.category = some Tier.High)
    (hM : ∀ s ∈ M, s.category = some Tier.Medium)
    (hL : ∀ s ∈ L, s.category = some Tier.Low)
    (hfuel : H.length + M.length + L.length ≤ fuel) :
    batchLoopF fuel H M L = batchLoopF (H.length + M.length + L.length) H M L ∧
    (¬(H = [] ∧ M = [] ∧ L = []) → 1 ≤ (takeBatch H M L).length) ∧
    (H = [] ∧ M = [] ∧ L = [] ↔ batchLoopF (fuel + 1) H M L = []) := by
  refine ⟨batchLoopF_stable fuel H M L hH hM hL hfuel, ?_, ?_, ?_⟩
  · intro hne
    exact List.length_pos.2 (takeBatch_ne_nil hne)
  · rintro ⟨rfl, rfl, rfl⟩
    exact batchLoopF_nil (fuel + 1)
  · intro hEmpty
    by_contra hne
    rw [batchLoopF_succ fuel H M L hH hM hL hne] at hEmpty
    exact List.cons_ne_nil _ _ hEmpty

/-- Witness for C6 at one High student, empty Medium and Low pools and fuel
five. -/
theorem batch_builder_terminates_witness :
    (batchLoopF 5 [(⟨ "a", 90, some Tier.High⟩ : Student)] [] [] =
      batchLoopF ([(⟨ "a", 90, some Tier.High⟩ : Student)].length +
          ([] : List Student).length + ([] : List Student).length)
        [(⟨ "a", 90, some Tier.High⟩ : Student)] [] []) ∧
    (¬([(⟨ "a", 90, some Tier.High⟩ : Student)] = [] ∧ ([] : List Student) = [] ∧
        ([] : List Student) = []) →
      1 ≤ (takeBatch [(⟨ "a", 90, some Tier.High⟩ : Student)] [] []).length) ∧
    ([(⟨ "a", 90, some Tier.High⟩ : Student)] = [] ∧ ([] : List Student) = [] ∧
        ([] : List Student) = [] ↔
      batchLoopF (5 + 1) [(⟨ "a", 90, some Tier.High⟩ : Student)] [] [] = []) :=
  batch_builder_terminates [(⟨ "a", 90, some Tier.High⟩ : Student)] [] [] 5
    (by decide) (by decide) (by decide) (by decide)

/-- C10: a categorized student whose score lies outside the interval
(-1, 100] receives no tier, appears in no emitted batch and in no archive
entry; categorization and batching are total, so no error or warning is
raised for that student. -/
theorem out_of_range_silently_excluded (rows : List (String × ℚ)) (s : Student)
    (hs : s ∈ categorize_students rows)
    (hout : ¬(-1 < s.score ∧ s.score ≤ 100)) :
    s.category = none ∧
    (∀ b ∈ create_balanced_batches (categorize_students rows), s ∉ b) ∧
    (∀ e ∈ export_batches_individually
        (create_balanced_batches (categorize_students rows)), s ∉ e.2) := by
  have hcat : s.category = cut s.score := by
    obtain ⟨r, hr, rfl⟩ := List.mem_map.1 hs
    rfl
  have hnone : s.category = none := by
    rw [hcat]
    by_cases h1 : -1 < s.score
    · have h100 : 100 < s.score := by
        push_neg at hout
        exact hout h1
      unfold cut
      rw [if_neg (by rintro ⟨_, hc⟩; linarith), if_neg (by rintro ⟨_, hc⟩; linarith),
        if_neg (by rintro ⟨_, hc⟩; linarith)]
    · have hle : s.score ≤ -1 := le_of_not_lt h1
      unfold cut
      rw [if_neg (by rintro ⟨hc, _⟩; linarith), if_neg (by rintro ⟨hc, _⟩; linarith),
        if_neg (by rintro ⟨hc, _⟩; linarith)]
  have hnobatch : ∀ b ∈ create_balanced_batches (categorize_students rows), s ∉ b := by
    intro b hb hmem
    unfold create_balanced_batches at hb
    rcases mem_of_mem_batchLoopF _ _ _ _ b s hb hmem with h | h | h
    · exact absurd (hiPool_homog _ s h) (by rw [hnone]; simp)
    · exact absurd (mdPool_homog _ s h) (by rw [hnone]; simp)
    · exact absurd (loPool_homog _ s h) (by rw [hnone]; simp)
  refine ⟨hnone, hnobatch, ?_⟩
  intro e he hmem
  obtain ⟨p, hp, rfl⟩ := List.mem_map.1 he
  obtain ⟨i, b⟩ := p
  have hb : b ∈ create_balanced_batches (categorize_students rows) := by
    have h2 := List.mem_enum hp
    rw [h2.2]
    exact List.getElem_mem h2.1
  exact hnobatch b hb hmem

/-- Witness for C10 at a single student scoring 150. -/
theorem out_of_range_silently_excluded_witness :
    (⟨ "x", 150, none⟩ : Student) ∈ categorize_students [( "x", 150)] ∧
    ((⟨ "x", 150, none⟩ : Student).category = none ∧
     (∀ b ∈ create_balanced_batches (categorize_students [( "x", 150)]),
        (⟨ "x", 150, none⟩ : Student) ∉ b) ∧
     (∀ e ∈ export_batches_individually
         (create_balanced_batches (categorize_students [( "x", 150)])),
        (⟨ "x", 150, none⟩ : Student) ∉ e.2)) :=
  ⟨by decide, out_of_range_silently_excluded [( "x", 150)] ⟨ "x", 150, none⟩
    (by decide) (by decide)⟩

/-- C5 counterexample: the categorizer is not total on all percentages and
does not map every p at most 40 to Low: -5 receives no tier at all. -/
theorem cut_counterexample :
    (cut (-5)).isSome = false ∧ cut (-5) ≠ some Tier.Low := by
  refine ⟨by norm_num [cut], ?_⟩
  rw [show cut (-5) = none from by norm_num [cut]]
  simp

/-- C5 (amended): on scores in (-1, 100] the categorizer is total with the
stated boundaries (at most 40 to Low, above 40 up to 70 to Medium, above 70
to High, checked at 40, 40.0001, 70 and 70.0001); scores outside (-1, 100]
are silently given no tier rather than flagged. -/
theorem cut_amended :
    (∀ p : ℚ, -1 < p → p ≤ 100 →
      ((p ≤ 40 → cut p = some Tier.Low) ∧
       (40 < p → p ≤ 70 → cut p = some Tier.Medium) ∧
       (70 < p → cut p = some Tier.High))) ∧
    cut 40 = some Tier.Low ∧ cut (400001 / 10000) = some Tier.Medium ∧
    cut 70 = some Tier.Medium ∧ cut (700001 / 10000) = some Tier.High ∧
    (∀ p : ℚ, p ≤ -1 ∨ 100 < p → cut p = none) := by
  refine ⟨?_, by norm_num [cut], by norm_num [cut], by norm_num [cut],
    by norm_num [cut], ?_⟩
  · intro p h1 h100
    refine ⟨fun h40 => ?_, fun h40 h70 => ?_, fun h70 => ?_⟩
    · unfold cut
      rw [if_pos ⟨h1, h40⟩]
    · unfold cut
      rw [if_neg (by rintro ⟨_, hc⟩; linarith), if_pos ⟨h40, h70⟩]
    · unfold cut
      rw [if_neg (by rintro ⟨_, hc⟩; linarith), if_neg (by rintro ⟨_, hc⟩; linarith),
        if_pos ⟨h70, h100⟩]
  · intro p hp
    rcases hp with hp | hp
    · unfold cut
      rw [if_neg (by rintro ⟨hc, _⟩; linarith), if_neg (by rintro ⟨hc, _⟩; linarith),
        if_neg (by rintro ⟨hc, _⟩; linarith)]
    · unfold cut
      rw [if_neg (by rintro ⟨_, hc⟩; linarith), if_neg (by rintro ⟨_, hc⟩; linarith),
        if_neg (by rintro ⟨_, hc⟩; linarith)]

/-- Witness for C5 (amended) at 50 in range and 200 out of range. -/
theorem cut_amended_witness : cut 50 = some Tier.Medium ∧ cut 200 = none :=
  ⟨(cut_amended.1 50 (by norm_num) (by norm_num)).2.1 (by norm_num) (by norm_num),
   cut_amended.2.2.2.2.2 200 (Or.inr (by norm_num))⟩

/-- Evaluation helper: eval of the constant True returns 1. -/
theorem evalPy_true {l : List Char} (hnolit : parseLit l = none)
    (htrue : l = ( "True").toList) : evalPy l = Except.ok 1 := by
  unfold evalPy
  simp only [hnolit]
  rw [if_pos htrue]

/-- Evaluation helper: eval of a call of abs on a literal returns the
absolute value of the literal. -/
theorem evalPy_abs {l : List Char} {d : DecLit}
    (hnolit : parseLit l = none)
    (htrue : ¬l = ( "True").toList)
    (h4 : l.take 4 = ( "abs(").toList)
    (hlast : l.getLast? = some (')'))
    (hinner : parseLit (trimChars ((l.drop 4).dropLast)) = some d) :
    evalPy l = Except.ok |d.val| := by
  unfold evalPy
  simp only [hnolit]
  rw [if_neg htrue, if_pos ⟨h4, hlast⟩, hinner]

/-- Every character of a string accepted by the unsigned literal parser is a
digit or a dot. -/
theorem parseLitCore_chars {l : List Char} {p : ℕ × ℕ × ℕ}
    (h : parseLitCore l = some p) : ∀ c ∈ l, c.isDigit ∨ c = ('.') := by
  intro c hc
  unfold parseLitCore at h
  by_cases hip : (l.takeWhile Char.isDigit).isEmpty
  · rw [if_pos hip] at h
    exact absurd h (by simp)
  · rw [if_neg hip] at h
    rw [← List.takeWhile_append_dropWhile Char.isDigit l, List.mem_append] at hc
    rcases hc with hc | hc
    · exact Or.inl (List.mem_takeWhile_imp hc)
    · cases hrest : l.dropWhile Char.isDigit with
      | nil => rw [hrest] at hc; simp at hc
      | cons c0 frac =>
        rw [hrest] at h hc
        dsimp only at h
        by_cases hcond : c0 = ('.') ∧ ¬frac.isEmpty ∧ frac.all Char.isDigit
        · rcases List.mem_cons.1 hc with hc | hc
          · subst hc
            exact Or.inr hcond.1
          · exact Or.inl (by
              have := List.all_eq_true.1 hcond.2.2 c hc
              simpa using this)
        · rw [if_neg hcond] at h
          exact absurd h (by simp)

/-- Every character of a string accepted by the literal parser is a digit, a
dot or a minus sign. -/
theorem parseLit_chars {l : List Char} {d : DecLit} (h : parseLit l = some d) :
    ∀ c ∈ l, c.isDigit ∨ c = ('.') ∨ c = ('-') := by
  intro c hc
  unfold parseLit at h
  cases l with
  | nil => simp at hc
  | cons c0 rest =>
    dsimp only at h
    by_cases hneg : c0 = ('-')
    · rw [if_pos hneg] at h
      cases hcore : parseLitCore rest with
      | none => rw [hcore] at h; exact absurd h (by simp)
      | some p =>
        rcases List.mem_cons.1 hc with hc | hc
        · subst hc
          exact Or.inr (Or.inr hneg)
        · rcases parseLitCore_chars hcore c hc with h2 | h2
          · exact Or.inl h2
          · exact Or.inr (Or.inl h2)
    · rw [if_neg hneg] at h
      cases hcore : parseLitCore (c0 :: rest) with
      | none => rw [hcore] at h; exact absurd h (by simp)
      | some p =>
        rcases parseLitCore_chars hcore c hc with h2 | h2
        · exact Or.inl h2
        · exact Or.inr (Or.inl h2)

/-- Trimming only discards whitespace: any other character survives. -/
theorem mem_trimChars {l : List Char} {c : Char} (hc : c ∈ l) :
    c ∈ trimChars l ∨ c.isWhitespace := by
  unfold trimChars
  rw [← List.takeWhile_append_dropWhile Char.isWhitespace l, List.mem_append] at hc
  rcases hc with hc | hc
  · exact Or.inr (List.mem_takeWhile_imp hc)
  · have hc2 : c ∈ (l.dropWhile Char.isWhitespace).reverse := List.mem_reverse.2 hc
    rw [← List.takeWhile_append_dropWhile Char.isWhitespace
      (l.dropWhile Char.isWhitespace).reverse, List.mem_append] at hc2
    rcases hc2 with hc2 | hc2
    · exact Or.inr (List.mem_takeWhile_imp hc2)
    · exact Or.inl (List.mem_reverse.2 hc2)

/-- A string whose trimmed form parses as a literal contains no slash. -/
theorem no_slash_of_parseLit {l : List Char} {d : DecLit}
    (h : parseLit (trimChars l) = some d) : ('/') ∉ l := by
  intro hc
  rcases mem_trimChars hc with h2 | h2
  · rcases parseLit_chars h _ h2 with h3 | h3 | h3
    · exact absurd h3 (by decide)
    · exact absurd h3 (by decide)
    · exact absurd h3 (by decide)
  · exact absurd h2 (by decide)

/-- One-step unfolding of split at a leading separator. -/
theorem splitOnChar_sep_cons (sep : Char) (r : List Char) :
    splitOnChar sep (sep :: r) = [] :: splitOnChar sep r := by
  rw [splitOnChar]
  rw [if_pos rfl]

/-- One-step unfolding of split at a leading non-separator. -/
theorem splitOnChar_ne_cons (sep c : Char) (cs : List Char) (h : ¬c = sep) :
    splitOnChar sep (c :: cs) =
      match splitOnChar sep cs with
      | [] => [[c]]
      | p :: ps => (c :: p) :: ps := by
  rw [splitOnChar]
  rw [if_neg h]

/-- Splitting a string without the separator gives the whole string back. -/
theorem splitOnChar_no_sep {sep : Char} :
    ∀ l : List Char, sep ∉ l → splitOnChar sep l = [l] := by
  intro l
  induction l with
  | nil => intro h; rfl
  | cons c cs ih =>
    intro h
    have hcne : ¬(c = sep) := fun hcon => h (by rw [← hcon]; exact List.mem_cons_self c cs)
    rw [splitOnChar_ne_cons sep c cs hcne, ih (fun hcon => h (List.mem_cons_of_mem c hcon))]

/-- Splitting at the first separator produces the text before it as the
first part. -/
theorem splitOnChar_append {sep : Char} :
    ∀ l r : List Char, sep ∉ l →
      splitOnChar sep (l ++ sep :: r) = l :: splitOnChar sep r := by
  intro l
  induction l with
  | nil =>
    intro r h
    exact splitOnChar_sep_cons sep r
  | cons c cs ih =>
    intro r h
    have hcne : ¬(c = sep) := fun hcon => h (by rw [← hcon]; exact List.mem_cons_self c cs)
    show splitOnChar sep (c :: (cs ++ sep :: r)) = (c :: cs) :: splitOnChar sep r
    rw [splitOnChar_ne_cons sep c _ hcne, ih r (fun hcon => h (List.mem_cons_of_mem c hcon))]

/-- C8: for every score string built from two decimal literals around a
slash, each side possibly surrounded by whitespace, with a nonzero total,
normalization returns exactly earned over total times 100. -/
theorem normalize_valid_scores (la lb : List Char) (da db : DecLit)
    (ha : parseLit (trimChars la) = some da)
    (hb : parseLit (trimChars lb) = some db)
    (hb0 : db.val ≠ 0) :
    normalize_score (la ++ ('/') :: lb) = Except.ok (da.val / db.val * 100) := by
  have hsplit : splitOnChar ('/') (la ++ ('/') :: lb) = la :: lb :: [] := by
    rw [splitOnChar_append la lb (no_slash_of_parseLit ha),
      splitOnChar_no_sep lb (no_slash_of_parseLit hb)]
  exact normalize_score_eq hsplit (evalPy_of_parseLit ha) (evalPy_of_parseLit hb) hb0

/-- Witness for C8 at the score string " 7.5 / 10", evaluating to 75. -/
theorem normalize_valid_scores_witness :
    normalize_score (( " 7.5 ").toList ++ ('/') :: ( " 10").toList) = Except.ok
      (DecLit.val ⟨false, 7, 5, 1⟩ / DecLit.val ⟨false, 10, 0, 0⟩ * 100) ∧
    DecLit.val ⟨false, 7, 5, 1⟩ / DecLit.val ⟨false, 10, 0, 0⟩ * 100 = 75 :=
  ⟨normalize_valid_scores (( " 7.5 ").toList) (( " 10").toList) ⟨false, 7, 5, 1⟩
      ⟨false, 10, 0, 0⟩ (by decide) (by decide) (by norm_num [DecLit.val]),
   by norm_num [DecLit.val]⟩

/-- C4 (code bug): the score normalizer evaluates arbitrary expressions with
eval instead of parsing numeric literals: the scores "abs(-5)/1" (a function
call) and "True/1" (a boolean constant) are accepted, yielding 500 and 100,
while the literal-only normalizer demanded by the spec rejects both with a
ParseError. -/
theorem normalize_score_executes_code :
    normalize_score (( "abs(-5)/1").toList) = Except.ok 500 ∧
    specNormalize (( "abs(-5)/1").toList) = Except.error PyErr.parseError ∧
    normalize_score (( "True/1").toList) = Except.ok 100 ∧
    specNormalize (( "True/1").toList) = Except.error PyErr.parseError := by
  refine ⟨?_, by decide, ?_, by decide⟩
  · have ha : evalPy (trimChars (( "abs(-5)").toList)) =
        Except.ok |DecLit.val ⟨true, 5, 0, 0⟩| :=
      evalPy_abs (by decide) (by decide) (by decide) (by decide) (by decide)
    have hb : evalPy (trimChars (( "1").toList)) =
        Except.ok (DecLit.val ⟨false, 1, 0, 0⟩) :=
      evalPy_of_parseLit (by decide)
    have h := normalize_score_eq (by decide : splitOnChar ('/')
        (( "abs(-5)/1").toList) = ( "abs(-5)").toList :: ( "1").toList :: [])
      ha hb (by norm_num [DecLit.val])
    rw [h]
    congr 1
    rw [show DecLit.val ⟨true, 5, 0, 0⟩ = -5 by norm_num [DecLit.val]]
    norm_num [DecLit.val]
  · have ha : evalPy (trimChars (( "True").toList)) = Except.ok 1 :=
      evalPy_true (by decide) (by decide)
    have hb : evalPy (trimChars (( "1").toList)) =
        Except.ok (DecLit.val ⟨false, 1, 0, 0⟩) :=
      evalPy_of_parseLit (by decide)
    have h := normalize_score_eq (by decide : splitOnChar ('/')
        (( "True/1").toList) = ( "True").toList :: ( "1").toList :: [])
      ha hb (by norm_num [DecLit.val])
    rw [h]
    congr 1
    norm_num [DecLit.val]

